import Mathlib

/-!
Verification of the nitpick / flake8-nitpick core against its design spec.

The Python source is shallowly embedded:
* nested TOML-shaped mappings (Python `dict`s whose values are scalars,
  lists, or nested mappings) become association lists `Tree α` over an
  arbitrary leaf type `α` with decidable equality — `flatten` and
  `unflatten` never inspect a non-mapping value, so scalars and lists are
  both covered by the parameter `α`;
* Python `str.split(sep)` for a one-character separator is modelled by
  `splitChar` on the string's character list;
* fallible code (Python code that can raise) returns `Option`/`Except`;
* the filesystem, the network and the on-disk cache are explicit state
  (`FS`, `World`, `Cache`) threaded through the functions that use them.
-/

namespace Nitpick

/-- A value in a nested mapping: either a non-mapping leaf (scalar or list,
opaque to the diff engine) or a nested mapping.  Mirrors the
`isinstance(value, collections.MutableMapping)` dichotomy of
`flake8_nitpick/generic.py`. -/
inductive TreeValue (α : Type) : Type where
  | leaf : α → TreeValue α
  | node : List (String × TreeValue α) → TreeValue α

/-- A nested mapping: an insertion-ordered association list, as a Python
`dict` is.  Well-formed trees have distinct keys at each level
(`wfTree` below); Python `dict`s guarantee this by construction. -/
abbrev Tree (α : Type) : Type := List (String × TreeValue α)

mutual

/-- Decidable equality of tree values (the nested inductive defeats
`deriving DecidableEq`, so it is written out). -/
def treeValueDecEq {α : Type} (dec : DecidableEq α) :
    (a b : TreeValue α) → Decidable (a = b)
  | .leaf x, .leaf y =>
    match dec x y with
    | isTrue h => isTrue (by rw [h])
    | isFalse h => isFalse (by intro hh; injection hh; contradiction)
  | .leaf _, .node _ => isFalse (by intro h; exact TreeValue.noConfusion h)
  | .node _, .leaf _ => isFalse (by intro h; exact TreeValue.noConfusion h)
  | .node t, .node u =>
    match treeDecEq dec t u with
    | isTrue h => isTrue (by rw [h])
    | isFalse h => isFalse (by intro hh; injection hh; contradiction)

/-- Decidable equality of trees. -/
def treeDecEq {α : Type} (dec : DecidableEq α) :
    (a b : List (String × TreeValue α)) → Decidable (a = b)
  | [], [] => isTrue rfl
  | [], _ :: _ => isFalse (by intro h; exact List.noConfusion h)
  | _ :: _, [] => isFalse (by intro h; exact List.noConfusion h)
  | (k, v) :: r, (k2, v2) :: r2 =>
    match String.decEq k k2 with
    | isFalse h => isFalse (by intro hh; injection hh with h1 h2; exact h (congrArg Prod.fst h1))
    | isTrue h1 =>
      match treeValueDecEq dec v v2 with
      | isFalse h => isFalse (by intro hh; injection hh with ha hb; exact h (congrArg Prod.snd ha))
      | isTrue h2 =>
        match treeDecEq dec r r2 with
        | isFalse h => isFalse (by intro hh; injection hh with ha hb; contradiction)
        | isTrue h3 => isTrue (by rw [h1, h2, h3])

end

instance {α : Type} [DecidableEq α] : DecidableEq (TreeValue α) :=
  fun a b => treeValueDecEq inferInstance a b

/-- `new_key = parent_key + separator + key if parent_key else key`
(from `flatten` in `generic.py`, at the default separator `"."`). -/
def newKey (parent key : String) : String :=
  if parent = "" then key else parent ++ "." ++ key

mutual

/-- The items contributed to `flatten`'s list by one value: a leaf yields
one `(new_key, value)` pair, a nested mapping is flattened recursively. -/
def flattenV {α : Type} : TreeValue α → String → List (String × α)
  | .leaf a, key => [(key, a)]
  | .node t, key => flattenT t key

/-- The `items` list built by the loop of `flatten` (`generic.py`), before
the final `dict(items)`. -/
def flattenT {α : Type} : Tree α → String → List (String × α)
  | [], _ => []
  | (k, v) :: rest, parent => flattenV v (newKey parent k) ++ flattenT rest parent

end

/-- Python `d[k] = v` on a `dict` modelled as an association list: replace
in place if the key is present (keeping its position), else append. -/
def assocSet {β : Type} : List (String × β) → String → β → List (String × β)
  | [], k, v => [(k, v)]
  | (k', v') :: rest, k, v =>
      if k' = k then (k, v) :: rest else (k', v') :: assocSet rest k v

/-- Python `dict(items)`: insert the pairs in order, later values for the
same key overriding earlier ones in place. -/
def toDict {β : Type} (l : List (String × β)) : List (String × β) :=
  l.foldl (fun acc kv => assocSet acc kv.1 kv.2) []

/-- `flatten(dict_)` from `generic.py` at the default arguments:
build the items list, then `dict(items)`. -/
def flatten {α : Type} (t : Tree α) : List (String × α) :=
  toDict (flattenT t "")

/-- Python `str.split(sep)` for a one-character separator `c`, on the
character list of the string.  `splitChar c l` is never empty. -/
def splitChar (c : Char) : List Char → List (List Char)
  | [] => [[]]
  | x :: xs =>
    match splitChar c xs with
    | [] => [[]]
    | g :: gs => if x = c then [] :: g :: gs else (x :: g) :: gs

/-- Python `s.split(c)` for a one-character separator. -/
def pySplit (c : Char) (s : String) : List String :=
  (splitChar c s.data).map String.mk

/-- Python `d[k]` / `d.get(k)` lookup on a `dict` modelled as an
association list. -/
def dictLookup {β : Type} : List (String × β) → String → Option β
  | [], _ => none
  | (k', v) :: rest, k => if k' = k then some v else dictLookup rest k

/-- The body of `unflatten`'s loop for one flattened entry (`generic.py`):
walk `keys[:-1]` from the top of `items`, creating `{}` on `KeyError`,
then assign the value at the last key.  Descending into a non-mapping
value raises `TypeError` in Python; that is the `none` case here. -/
def insertPath {α : Type} : Tree α → List String → α → Option (Tree α)
  | _, [], _ => none
  | t, k :: ks, v =>
    match ks with
    | [] => some (assocSet t k (TreeValue.leaf v))
    | _ :: _ =>
      match dictLookup t k with
      | some (.node sub) => (insertPath sub ks v).map (fun s => assocSet t k (.node s))
      | some (.leaf _) => none
      | none => (insertPath [] ks v).map (fun s => assocSet t k (.node s))

/-- `unflatten(dict_)` from `generic.py` at the default separator:
process the flattened entries in order; `none` models the `TypeError`
Python raises when a path descends into a non-mapping value. -/
def unflatten {α : Type} (d : List (String × α)) : Option (Tree α) :=
  d.foldlM (fun items kv => insertPath items (pySplit '.' kv.1) kv.2) []

mutual

/-- Key discipline of one tree level, recursively: every key is non-empty,
contains no `'.'`, and is distinct from its siblings; every nested
mapping is well-formed. -/
def wfTree {α : Type} : Tree α → Bool
  | [] => true
  | (k, v) :: rest =>
      !k.data.isEmpty && !k.data.contains '.' &&
      !(rest.map Prod.fst).contains k && wfValue v && wfTree rest

/-- Well-formedness of one value: nested mappings are non-empty and
well-formed. -/
def wfValue {α : Type} : TreeValue α → Bool
  | .leaf _ => true
  | .node t => !t.isEmpty && wfTree t

end

mutual

/-- The precondition exactly as the round-trip claim states it: no key,
at any level, contains the separator character `'.'`. -/
def noDotTree {α : Type} : Tree α → Bool
  | [] => true
  | (k, v) :: rest => !k.data.contains '.' && noDotValue v && noDotTree rest

/-- `noDotTree`, on one value. -/
def noDotValue {α : Type} : TreeValue α → Bool
  | .leaf _ => true
  | .node t => noDotTree t

end

/-! ### Navigation helpers for the round-trip proof

`getNodeS` descends through existing nested mappings only ("strict get").
`getNodeC` additionally treats a missing key as an empty mapping, the way
`unflatten`'s loop creates `{}` on `KeyError` ("creating get").
`setNodeC` rebuilds a tree after replacing the sub-mapping at a path,
creating intermediate mappings where they are missing — it is the shape
of tree `insertPath` leaves behind. -/

/-- Strict descent: follow the path through existing nested mappings. -/
def getNodeS {α : Type} : Tree α → List String → Option (Tree α)
  | t, [] => some t
  | t, k :: ks =>
    match dictLookup t k with
    | some (.node s) => getNodeS s ks
    | _ => none

/-- Creating descent: a missing key reads as an empty mapping; a leaf on
the path is a dead end. -/
def getNodeC {α : Type} : Tree α → List String → Option (Tree α)
  | t, [] => some t
  | t, k :: ks =>
    match dictLookup t k with
    | some (.node s) => getNodeC s ks
    | some (.leaf _) => none
    | none => getNodeC ([] : Tree α) ks

/-- The sub-mapping under a key, an empty mapping when absent or a leaf. -/
def childC {α : Type} (t : Tree α) (k : String) : Tree α :=
  match dictLookup t k with
  | some (.node s) => s
  | _ => []

/-- Replace the sub-mapping at a path, creating missing levels. -/
def setNodeC {α : Type} : Tree α → List String → Tree α → Tree α
  | _, [], t2 => t2
  | t, k :: ks, t2 => assocSet t k (.node (setNodeC (childC t k) ks t2))

/-- The fold at the heart of `unflatten`, from an arbitrary accumulator. -/
def unflattenList {α : Type} (d : List (String × α)) (acc : Tree α) : Option (Tree α) :=
  d.foldlM (fun items kv => insertPath items (pySplit '.' kv.1) kv.2) acc

/-- The relation between the string prefix carried by `flatten` and the
list of key components it was built from: empty at the root, otherwise
splitting the prefix on `'.'` recovers the components. -/
def SplitInv (pfx : String) (P : List String) : Prop :=
  (pfx = "" ∧ P = []) ∨ (pfx ≠ "" ∧ pySplit '.' pfx = P)

/-! ### Diagnostics (`flake8_nitpick/__init__.py`) -/

/-- A flake8-style diagnostic.  The Python `NitpickError` tuple is
`(line, column, message, class)`; its fourth component is always the
constant class `NitpickChecker` and is omitted. -/
structure NitpickError where
  line : Nat
  col : Nat
  message : String
deriving DecidableEq

/-- Python `repr` of a string without special characters, as produced by
the `!r` conversions in the error f-strings. -/
def pyRepr (s : String) : String := "'" ++ s ++ "'"

/-- `nitpick_error` from `flake8_nitpick/__init__.py`:
`return 1, 0, f"{ERROR_PREFIX}{error_number} {error_message}", NitpickChecker`. -/
def nitpick_error (error_number : Nat) (error_message : String) : NitpickError :=
  ⟨1, 0, "NIP" ++ toString error_number ++ " " ++ error_message⟩

/-! ### `PyProjectTomlChecker.check_rules` (`flake8_nitpick/__init__.py`) -/

/-- Python `a.items() <= b.items()` on two flattened dicts: set
containment of the `(key, value)` pairs. -/
def itemsSubset {α : Type} [DecidableEq α] (a b : List (String × α)) : Bool :=
  a.all (fun kv => b.any (fun kv2 => kv2 = kv))

namespace PyProjectTomlChecker

/-- The tree built inside `PyProjectTomlChecker.check_rules`:
`unflatten({k: v for k, v in style.items() if k not in project})`, where
`project = flatten(self.config.pyproject_toml)` and
`style = flatten(self.file_toml)`.  `none` models the `TypeError`
`unflatten` can raise. -/
def missing_dict {α : Type} [DecidableEq α] (pyproject_toml file_toml : Tree α) :
    Option (Tree α) :=
  let project := flatten pyproject_toml
  let style := flatten file_toml
  unflatten (style.filter (fun kv => !((project.map Prod.fst).contains kv.1)))

/-- `PyProjectTomlChecker.check_rules`.  The diagnostic's message embeds
`toml.dumps(missing_dict)`; `toml.dumps` is an external library call, so
the diagnostic is modelled as the pair of its error number (104) and the
tree it serializes. -/
def check_rules {α : Type} [DecidableEq α] (pyproject_toml file_toml : Tree α) :
    Option (List (Nat × Tree α)) :=
  let project := flatten pyproject_toml
  let style := flatten file_toml
  if itemsSubset style project then some []
  else
    match missing_dict pyproject_toml file_toml with
    | none => none
    | some md => some [(104, md)]

end PyProjectTomlChecker

/-- The structural diff as the spec's words state it: the nested
reconstruction of every leaf whose `(dotted-key, value)` pair occurs in
the flattening of `expected` but is absent from the flattening of
`actual` — by key or by differing value; in the differing-value case the
key keeps `expected`'s value. -/
def specMissing {α : Type} [DecidableEq α] (expected actual : Tree α) : Option (Tree α) :=
  unflatten ((flatten expected).filter
    (fun kv => !((flatten actual).any (fun kv2 => kv2 = kv))))

/-! ### The filesystem and `climb_directory_tree` (`generic.py`)

An absolute POSIX path is its list of components below the root, so `/`
is `[]` and `/a/b` is `["a", "b"]`; `Path.parent` is `List.dropLast`.
The loop of `climb_directory_tree` runs `while current_dir.root !=
str(current_dir)`, i.e. while the current directory is not `/` itself. -/

/-- The filesystem snapshot: which paths are files, which paths exist,
and what `dir.glob(pattern)` returns (in order) at each directory. -/
structure FS where
  isFile : List String → Bool
  pathExists : List String → Bool
  glob : List String → String → List (List String)

/-- The inner pattern loop of `climb_directory_tree`: the matches of the
first pattern that has any at this directory. -/
def firstPatternMatch (fs : FS) (dir : List String) : List String → Option (List (List String))
  | [] => none
  | pat :: rest =>
    let found_files := fs.glob dir pat
    if found_files.isEmpty then firstPatternMatch fs dir rest else some found_files

/-- The `while` loop of `climb_directory_tree`: test the patterns, then
ascend; stop with `none` on reaching `/` (which is itself never tested).
`Path.parent` peels the last path component, so the loop is structural
descent on the *reversed* component list: the argument `rev` is the
current directory's components in reverse, and the current directory is
`rev.reverse`. -/
def climbLoop (fs : FS) (patterns : List String) : List String → Option (List (List String))
  | [] => none
  | k :: rev =>
    match firstPatternMatch fs (k :: rev).reverse patterns with
    | some found => some found
    | none => climbLoop fs patterns rev

/-- `climb_directory_tree(starting_path, file_patterns)` from
`generic.py`: resolve a file to its containing directory, then climb. -/
def climb_directory_tree (fs : FS) (starting_path : List String)
    (file_patterns : List String) : Option (List (List String)) :=
  let current_dir := if fs.isFile starting_path then starting_path.dropLast else starting_path
  climbLoop fs file_patterns current_dir.reverse

/-- The chain of directories the climb visits, nearest first, as a
function of the reversed component list of the start directory: each
step drops the last component; the filesystem root `[]` is excluded. -/
def strictAncestorsRev : List String → List (List String)
  | [] => []
  | k :: rev => (k :: rev).reverse :: strictAncestorsRev rev

/-- The chain of directories the climb visits, nearest first: the start
directory and its ancestors, excluding the filesystem root `[]`. -/
def strictAncestors (d : List String) : List (List String) :=
  strictAncestorsRev d.reverse

/-- A directory at which some pattern has at least one glob match. -/
def dirMatches (fs : FS) (patterns : List String) (dir : List String) : Bool :=
  patterns.any (fun p => !(fs.glob dir p).isEmpty)

/-! ### `BaseChecker.check_exists` (`flake8_nitpick/__init__.py`) -/

/-- `BaseChecker.check_exists`, as a function of the style document's
`files` table, the checker's `should_exist_default`, its `file_name` and
the file's actual presence on disk. -/
def check_exists (files : List (String × Bool)) (should_exist_default : Bool)
    (file_name : String) (file_exists : Bool) : List NitpickError :=
  let should_exist := (dictLookup files file_name).getD should_exist_default
  if should_exist && !file_exists then
    [nitpick_error 102 ("Missing file " ++ pyRepr file_name)]
  else if !should_exist && file_exists then
    [nitpick_error 103 ("File " ++ pyRepr file_name ++ " should be deleted")]
  else []

/-! ### `TextPlugin.check_rules` (`src/nitpick/plugins/text.py`) -/

/-- `marshmallow.orderedset.OrderedSet`: deduplicate, keeping the first
occurrence of each element in insertion order. -/
def orderedSet (l : List String) : List String :=
  l.foldl (fun acc x => if acc.contains x then acc else acc ++ [x]) []

/-- Python `sorted` on strings (lexicographic by code point). -/
def pySorted (l : List String) : List String :=
  l.mergeSort (fun a b => decide (a ≤ b))

/-- A diagnostic of the plugin architecture, by its numeric code, message
and suggestion text. -/
structure TextError where
  code : Nat
  message : String
  suggestion : String
deriving DecidableEq

namespace TextPlugin

/-- `TextPlugin.error_base_number = 350`. -/
def error_base_number : Nat := 350

/-- Modelled from the spec: `NitpickPlugin.flake8_error` lives in
`src/nitpick/plugins/base.py`, which is not under `src/`; per the spec a
checker's diagnostic carries a stable numeric code namespaced by its
`error_base_number` (e.g. the text checker's missing-lines diagnostic
uses `error_base_number + 2`), together with the message and the
suggestion passed by the caller. -/
def flake8_error (base number : Nat) (message suggestion : String) : TextError :=
  ⟨base + number, message, suggestion⟩

/-- `TextPlugin.check_rules`, as a function of the expected lines
declared in the style (`self._expected_lines()`) and the checked file's
text (`self.file_path.read_text()`). -/
def check_rules (expected_lines : List String) (file_text : String) : List TextError :=
  let expected := orderedSet expected_lines
  let actual := orderedSet (pySplit '\n' file_text)
  let missing := expected.filter (fun l => !actual.contains l)
  if missing.isEmpty then []
  else
    [flake8_error error_base_number 2 " has missing lines:"
      (String.intercalate "\n" (pySorted missing))]

end TextPlugin

/-! ### The cache, the style resolver and `NitpickChecker.run`
(`flake8_nitpick/__init__.py`)

The on-disk cache file holds one string per key; `dump_path` stores a
path relative to the current working directory (raising `ValueError`
when the path is not under it) and `load_path` resolves it back against
the current working directory.  `NitpickCache` re-reads the file on each
construction and rewrites it on each `dump`; the runs are sequential, so
the cache is threaded through as explicit state. -/

/-- Python exceptions relevant to `run`: `RuntimeError` (raised by
`NitpickConfig` and caught by `run`) and `ValueError` (raised by
`Path.relative_to` in `NitpickCache.dump_path` and caught nowhere). -/
inductive PyError where
  | runtimeError : String → PyError
  | valueError : PyError
deriving DecidableEq

/-- The cache file's three keys, each an optional stored path relative to
the current working directory. -/
structure Cache where
  root_dir : Option (List String)
  main_python_file : Option (List String)
  style : Option (List String)
deriving DecidableEq

/-- `NAME = "flake8-nitpick"`. -/
def NAME : String := "flake8-nitpick"

/-- `PYPROJECT_TOML = "pyproject.toml"`. -/
def PYPROJECT_TOML : String := "pyproject.toml"

/-- `NITPICK_STYLE_TOML = "nitpick-style.toml"`. -/
def NITPICK_STYLE_TOML : String := "nitpick-style.toml"

/-- `ROOT_PYTHON_FILES = ("setup.py", "manage.py", "autoapp.py")`. -/
def ROOT_PYTHON_FILES : List String := ["setup.py", "manage.py", "autoapp.py"]

/-- `ROOT_FILES = (PYPROJECT_TOML, "setup.cfg", "requirements*.txt",
"Pipfile") + ROOT_PYTHON_FILES`. -/
def ROOT_FILES : List String :=
  [PYPROJECT_TOML, "setup.cfg", "requirements*.txt", "Pipfile"] ++ ROOT_PYTHON_FILES

/-- `CACHE_DIR = Path(os.getcwd()) / ".cache" / NAME`. -/
def CACHE_DIR (cwd : List String) : List String := cwd ++ [".cache", NAME]

/-- `Path.relative_to`: strip the working directory prefix, `ValueError`
(here `none`) when the path is not under it. -/
def relative_to (p cwd : List String) : Option (List String) :=
  if cwd.isPrefixOf p then some (p.drop cwd.length) else none

/-- The environment of one run.  Everything `run` consults that is not
modelled in depth is a field: the filesystem, the network (`http url`
is `some text` on a 2xx response, `none` otherwise), the `style` key of
the project's `pyproject.toml` at a given root, the absolute path a
style string denotes, and the diagnostics the checker loop emits given
the root directory and the resolved style path (the per-checker work is
out of the resolution claims' scope and is kept abstract). -/
structure World where
  cwd : List String
  fs : FS
  http : String → Option String
  pyprojectStyle : List String → String
  resolveStr : String → List String
  checkerErrors : List String → List String → List NitpickError

/-- What one call of `NitpickConfig.find_style` produced: its result (a
resolved style path, or the Python exception it raised), how many
network requests and directory-tree climbs it performed, and the cache
it left behind. -/
structure StyleOutcome where
  result : Except PyError (List String)
  httpRequests : Nat
  climbs : Nat
  cacheAfter : Cache

/-- `NitpickConfig.find_style`: cache fast path, else the explicit style
locator from `pyproject.toml` (remote fetch when it starts with
`"http"`, else a local path that must exist), else a climb for
`nitpick-style.toml`; every non-cache success is dumped to the cache
relative to the working directory. -/
def find_style (w : World) (cache : Cache) (root_dir : List String) : StyleOutcome :=
  match cache.style with
  | some rel => ⟨.ok (w.cwd ++ rel), 0, 0, cache⟩
  | none =>
    let style := w.pyprojectStyle root_dir
    if style.startsWith "http" then
      match w.http style with
      | none => ⟨.error (.runtimeError ("Error <response> fetching style URL " ++ style)),
          1, 0, cache⟩
      | some _contents =>
        let style_path := CACHE_DIR w.cwd ++ ["style.toml"]
        match relative_to style_path w.cwd with
        | some rel => ⟨.ok style_path, 1, 0, { cache with style := some rel }⟩
        | none => ⟨.error .valueError, 1, 0, cache⟩
    else if style ≠ "" then
      let style_path := w.resolveStr style
      if w.fs.pathExists style_path then
        match relative_to style_path w.cwd with
        | some rel => ⟨.ok style_path, 0, 0, { cache with style := some rel }⟩
        | none => ⟨.error .valueError, 0, 0, cache⟩
      else ⟨.error (.runtimeError ("Style file does not exist: " ++ style)), 0, 0, cache⟩
    else
      match climb_directory_tree w.fs root_dir [NITPICK_STYLE_TOML] with
      | none => ⟨.error (.runtimeError ("Style not configured on " ++ PYPROJECT_TOML ++
          " and " ++ NITPICK_STYLE_TOML ++ " not found in directory tree")), 0, 1, cache⟩
      | some paths =>
        let style_path := paths.headD []
        match relative_to style_path w.cwd with
        | some rel => ⟨.ok style_path, 0, 1, { cache with style := some rel }⟩
        | none => ⟨.error .valueError, 0, 1, cache⟩

/-- `NitpickChecker.find_root_dir`: cached, else the parent directory of
the first file a climb over `ROOT_FILES` finds (cached on success),
else `None` — which is not cached. -/
def find_root_dir (w : World) (cache : Cache) (python_file : List String) :
    Except PyError (Option (List String)) × Cache :=
  match cache.root_dir with
  | some rel => (.ok (some (w.cwd ++ rel)), cache)
  | none =>
    match climb_directory_tree w.fs python_file ROOT_FILES with
    | none => (.ok none, cache)
    | some found_files =>
      let root_dir := (found_files.headD []).dropLast
      match relative_to root_dir w.cwd with
      | some rel => (.ok (some root_dir), { cache with root_dir := some rel })
      | none => (.error .valueError, cache)

/-- `NitpickChecker.find_main_python_file`: cached, else the first
existing file among `ROOT_PYTHON_FILES` under the root followed by the
root's `*.py` glob, else the file under inspection; the choice is
dumped to the cache. -/
def find_main_python_file (w : World) (cache : Cache) (root_dir current_file : List String) :
    Except PyError (List String) × Cache :=
  match cache.main_python_file with
  | some rel => (.ok (w.cwd ++ rel), cache)
  | none =>
    let candidates := ROOT_PYTHON_FILES.map (fun f => root_dir ++ [f]) ++
      w.fs.glob root_dir "*.py"
    let found := (candidates.find? (fun p => w.fs.pathExists p)).getD current_file
    match relative_to found w.cwd with
    | some rel => (.ok found, { cache with main_python_file := some rel })
    | none => (.error .valueError, cache)

/-- The primary-file selection rule as the spec states it: the first
existing match among the fixed conventional entry-point names, else the
first source file found in the root, else the file under inspection. -/
def primary_file_rule (w : World) (root_dir current_file : List String) : List String :=
  match (ROOT_PYTHON_FILES.map (fun n => root_dir ++ [n])).find? (fun p => w.fs.pathExists p) with
  | some p => p
  | none =>
    match (w.fs.glob root_dir "*.py").find? (fun p => w.fs.pathExists p) with
    | some p => p
    | none => current_file

/-- `NitpickChecker.run`.  Paths are carried in resolved form, so the
`.resolve()` in the primary-file comparison is the identity.  The
`if not main_python_file` branch of the source is dead code (a `Path`
is always truthy) and has no counterpart here.  `NitpickConfig`'s
`RuntimeError`s are caught by `run` and yielded as one code-100
diagnostic; a `ValueError` from a cache dump propagates to the caller. -/
def run (w : World) (cache : Cache) (filename : List String) :
    Except PyError (List NitpickError) × Cache :=
  match find_root_dir w cache filename with
  | (.error e, c) => (.error e, c)
  | (.ok none, c) => (.ok [nitpick_error 100 "No root dir found (is this a Python project?)"], c)
  | (.ok (some root_dir), c) =>
    match find_main_python_file w c root_dir filename with
    | (.error e, c2) => (.error e, c2)
    | (.ok main_python_file, c2) =>
      if filename ≠ main_python_file then (.ok [], c2)
      else
        let so := find_style w c2 root_dir
        match so.result with
        | .error (.runtimeError msg) => (.ok [nitpick_error 100 msg], so.cacheAfter)
        | .error .valueError => (.error .valueError, so.cacheAfter)
        | .ok style_path => (.ok (w.checkerErrors root_dir style_path), so.cacheAfter)

/-! ### Concrete fixtures for closed witness and counterexample theorems -/

/-- A filesystem where the pattern `"marker"` matches only at the
filesystem root `/` itself. -/
def fsRootOnly : FS :=
  ⟨fun _ => false, fun _ => false,
   fun d p => if d.isEmpty && p == "marker" then [["marker"]] else []⟩

/-- An entirely empty filesystem. -/
def fsEmpty : FS := ⟨fun _ => false, fun _ => false, fun _ _ => []⟩

/-- A filesystem with one project `/proj` holding `pyproject.toml`,
`setup.py` and `main.py`. -/
def fsProj : FS :=
  ⟨fun p => p == ["proj", "main.py"] || p == ["proj", "setup.py"],
   fun p => p == ["proj", "setup.py"],
   fun d p => if d == ["proj"] && p == "pyproject.toml" then [["proj", "pyproject.toml"]] else []⟩

/-- A filesystem where only the local style file `/sty` exists. -/
def fsStyle : FS := ⟨fun _ => false, fun p => p == ["sty"], fun _ _ => []⟩

/-- The empty cache. -/
def cache0 : Cache := ⟨none, none, none⟩

/-- A run environment over `fsProj` whose checker loop would report a
violation (the project is non-compliant). -/
def worldProj : World :=
  ⟨[], fsProj, fun _ => none, fun _ => "", fun _ => [],
   fun _ _ => [nitpick_error 104 "Missing values"]⟩

/-- A run environment over the empty filesystem. -/
def worldEmpty : World :=
  ⟨[], fsEmpty, fun _ => none, fun _ => "", fun _ => [], fun _ _ => []⟩

/-- A run environment whose `pyproject.toml` names the existing local
style `"sty"`. -/
def worldLocalStyle : World :=
  ⟨[], fsStyle, fun _ => none, fun _ => "sty",
   fun s => if s == "sty" then ["sty"] else [], fun _ _ => []⟩

end Nitpick

namespace Nitpick

/-! ## Support lemmas: association lists and tree navigation -/

theorem assocSet_of_not_mem {β : Type} {l : List (String × β)} {k : String} (v : β)
    (h : k ∉ l.map Prod.fst) : assocSet l k v = l ++ [(k, v)] := by
  induction l with
  | nil => rfl
  | cons x rest ih =>
    obtain ⟨k', v'⟩ := x
    simp only [List.map_cons, List.mem_cons, not_or] at h
    simp only [assocSet, List.cons_append]
    rw [if_neg (fun hh => h.1 hh.symm), ih h.2]

theorem dictLookup_assocSet_self {β : Type} (l : List (String × β)) (k : String) (v : β) :
    dictLookup (assocSet l k v) k = some v := by
  induction l with
  | nil => simp [assocSet, dictLookup]
  | cons x rest ih =>
    obtain ⟨k', v'⟩ := x
    by_cases hk : k' = k
    · simp [assocSet, hk, dictLookup]
    · simp [assocSet, hk, dictLookup, ih]

theorem assocSet_assocSet {β : Type} (l : List (String × β)) (k : String) (v w : β) :
    assocSet (assocSet l k v) k w = assocSet l k w := by
  induction l with
  | nil => simp [assocSet]
  | cons x rest ih =>
    obtain ⟨k', v'⟩ := x
    by_cases hk : k' = k
    · simp [assocSet, hk]
    · simp [assocSet, hk, ih]

theorem childC_assocSet_node {α : Type} (t : Tree α) (k : String) (s : Tree α) :
    childC (assocSet t k (.node s)) k = s := by
  simp [childC, dictLookup_assocSet_self]

theorem dictLookup_eq_none_of_not_mem {β : Type} {l : List (String × β)} {k : String}
    (h : k ∉ l.map Prod.fst) : dictLookup l k = none := by
  induction l with
  | nil => rfl
  | cons x rest ih =>
    obtain ⟨k', v'⟩ := x
    simp only [List.map_cons, List.mem_cons, not_or] at h
    simp only [dictLookup]
    rw [if_neg (fun hh => h.1 hh.symm)]
    exact ih h.2

theorem getNodeC_nil {α : Type} (P : List String) :
    getNodeC ([] : Tree α) P = some [] := by
  induction P with
  | nil => rfl
  | cons k ks ih => simpa [getNodeC, dictLookup] using ih

theorem getNodeC_of_getNodeS {α : Type} {t : Tree α} {P : List String} {s : Tree α}
    (h : getNodeS t P = some s) : getNodeC t P = some s := by
  induction P generalizing t with
  | nil => simpa [getNodeS, getNodeC] using h
  | cons k ks ih =>
    simp only [getNodeS, getNodeC] at h ⊢
    cases hl : dictLookup t k with
    | none => simp [hl] at h
    | some v =>
      cases v with
      | leaf a => simp [hl] at h
      | node sub => simp only [hl] at h ⊢; exact ih h

theorem getNodeC_append {α : Type} (t : Tree α) (P Q : List String) :
    getNodeC t (P ++ Q) = (getNodeC t P).bind (fun s => getNodeC s Q) := by
  induction P generalizing t with
  | nil => simp [getNodeC]
  | cons k ks ih =>
    simp only [List.cons_append, getNodeC]
    cases hl : dictLookup t k with
    | none => simpa using ih []
    | some v =>
      cases v with
      | leaf a => simp
      | node sub => simpa using ih sub

theorem getNodeS_setNodeC {α : Type} {t : Tree α} {P : List String} {sub : Tree α}
    (h : getNodeC t P = some sub) (s : Tree α) :
    getNodeS (setNodeC t P s) P = some s := by
  induction P generalizing t sub with
  | nil => rfl
  | cons k ks ih =>
    simp only [getNodeC] at h
    simp only [setNodeC, getNodeS, dictLookup_assocSet_self]
    cases hl : dictLookup t k with
    | none =>
      simp only [hl] at h
      have : childC t k = [] := by simp [childC, hl]
      rw [this]
      exact ih (getNodeC_nil ks)
    | some v =>
      cases v with
      | leaf a => simp [hl] at h
      | node c =>
        simp only [hl] at h
        have : childC t k = c := by simp [childC, hl]
        rw [this]
        exact ih h

theorem setNodeC_setNodeC {α : Type} {t : Tree α} {P : List String} {sub : Tree α}
    (h : getNodeC t P = some sub) (s1 s2 : Tree α) :
    setNodeC (setNodeC t P s1) P s2 = setNodeC t P s2 := by
  induction P generalizing t sub with
  | nil => rfl
  | cons k ks ih =>
    simp only [getNodeC] at h
    simp only [setNodeC, childC_assocSet_node, assocSet_assocSet]
    cases hl : dictLookup t k with
    | none =>
      simp only [hl] at h
      have hc : childC t k = [] := by simp [childC, hl]
      rw [hc, ih (getNodeC_nil ks)]
    | some v =>
      cases v with
      | leaf a => simp [hl] at h
      | node c =>
        simp only [hl] at h
        have hc : childC t k = c := by simp [childC, hl]
        rw [hc, ih h]

theorem assocSet_of_lookup_eq {β : Type} {l : List (String × β)} {k : String} {v : β}
    (h : dictLookup l k = some v) : assocSet l k v = l := by
  induction l with
  | nil => simp [dictLookup] at h
  | cons x rest ih =>
    obtain ⟨k', v'⟩ := x
    by_cases hk : k' = k
    · subst hk
      simp [dictLookup] at h
      simp [assocSet, h]
    · simp only [dictLookup, if_neg hk] at h
      simp [assocSet, hk, ih h]

theorem setNodeC_self {α : Type} {t : Tree α} {P : List String} {sub : Tree α}
    (h : getNodeS t P = some sub) : setNodeC t P sub = t := by
  induction P generalizing t sub with
  | nil => simp only [getNodeS, Option.some.injEq] at h; simpa [setNodeC] using h.symm
  | cons k ks ih =>
    simp only [getNodeS] at h
    cases hl : dictLookup t k with
    | none => simp [hl] at h
    | some v =>
      cases v with
      | leaf a => simp [hl] at h
      | node c =>
        simp only [hl] at h
        have hc : childC t k = c := by simp [childC, hl]
        simp only [setNodeC, hc, ih h]
        exact assocSet_of_lookup_eq hl

theorem setNodeC_append {α : Type} {t : Tree α} {P : List String} {sub : Tree α}
    (h : getNodeC t P = some sub) (Q : List String) (s : Tree α) :
    setNodeC t (P ++ Q) s = setNodeC t P (setNodeC sub Q s) := by
  induction P generalizing t sub with
  | nil => simp only [getNodeC, Option.some.injEq] at h; subst h; rfl
  | cons k ks ih =>
    simp only [getNodeC] at h
    simp only [List.cons_append, setNodeC, List.append_eq]
    cases hl : dictLookup t k with
    | none =>
      rw [hl] at h
      have h2 : getNodeC ([] : Tree α) ks = some sub := h
      rw [getNodeC_nil ks, Option.some.injEq] at h2
      subst h2
      have hc : childC t k = [] := by simp [childC, hl]
      rw [hc, ih (getNodeC_nil ks)]
    | some w =>
      cases w with
      | leaf a => rw [hl] at h; exact Option.noConfusion h
      | node c =>
        rw [hl] at h
        have h2 : getNodeC c ks = some sub := h
        have hc : childC t k = c := by simp [childC, hl]
        rw [hc, ih h2]

theorem insertPath_cons_node {α : Type} {t : Tree α} {k : String} {ks : List String}
    {c : Tree α} (hks : ks ≠ []) (hl : dictLookup t k = some (.node c)) (v : α) :
    insertPath t (k :: ks) v = (insertPath c ks v).map (fun s => assocSet t k (.node s)) := by
  cases ks with
  | nil => exact absurd rfl hks
  | cons a b => simp [insertPath, hl]

theorem insertPath_cons_leaf {α : Type} {t : Tree α} {k : String} {ks : List String}
    {a : α} (hks : ks ≠ []) (hl : dictLookup t k = some (.leaf a)) (v : α) :
    insertPath t (k :: ks) v = none := by
  cases ks with
  | nil => exact absurd rfl hks
  | cons x b => simp [insertPath, hl]

theorem insertPath_cons_none {α : Type} {t : Tree α} {k : String} {ks : List String}
    (hks : ks ≠ []) (hl : dictLookup t k = none) (v : α) :
    insertPath t (k :: ks) v = (insertPath ([] : Tree α) ks v).map (fun s => assocSet t k (.node s)) := by
  cases ks with
  | nil => exact absurd rfl hks
  | cons x b => simp [insertPath, hl]

theorem insertPath_append {α : Type} {t : Tree α} {P : List String} {sub : Tree α}
    (h : getNodeC t P = some sub) (ks : List String) (hks : ks ≠ []) (v : α) :
    insertPath t (P ++ ks) v = (insertPath sub ks v).map (fun s => setNodeC t P s) := by
  induction P generalizing t sub with
  | nil =>
    simp only [getNodeC, Option.some.injEq] at h
    subst h
    simp [setNodeC]
  | cons k ks' ih =>
    simp only [getNodeC] at h
    have hne : ks' ++ ks ≠ [] := by
      cases ks with
      | nil => exact absurd rfl hks
      | cons a b => simp
    rw [List.cons_append]
    simp only [setNodeC]
    cases hl : dictLookup t k with
    | none =>
      rw [hl] at h
      have h2 : getNodeC ([] : Tree α) ks' = some sub := h
      rw [getNodeC_nil ks', Option.some.injEq] at h2
      subst h2
      have hc : childC t k = [] := by simp [childC, hl]
      rw [insertPath_cons_none hne hl v, hc, ih (getNodeC_nil ks')]
      cases insertPath ([] : Tree α) ks v <;> simp
    | some w =>
      cases w with
      | leaf a =>
        rw [hl] at h
        exact Option.noConfusion h
      | node c =>
        rw [hl] at h
        have h2 : getNodeC c ks' = some sub := h
        have hc : childC t k = c := by simp [childC, hl]
        rw [insertPath_cons_node hne hl v, hc, ih h2]
        cases insertPath sub ks v <;> simp

/-! ## Support lemmas: splitting strings on the separator -/

theorem splitChar_ne_nil (c : Char) (l : List Char) : splitChar c l ≠ [] := by
  cases l with
  | nil => simp [splitChar]
  | cons x xs =>
    simp only [splitChar]
    cases splitChar c xs with
    | nil => simp
    | cons g gs =>
      by_cases hx : x = c <;> simp [hx]

theorem splitChar_append_cons (c : Char) (xs ys : List Char) :
    splitChar c (xs ++ c :: ys) = splitChar c xs ++ splitChar c ys := by
  induction xs with
  | nil =>
    simp only [List.nil_append, splitChar]
    cases h : splitChar c ys with
    | nil => exact absurd h (splitChar_ne_nil c ys)
    | cons g gs => simp [splitChar]
  | cons x xs ih =>
    rw [List.cons_append]
    simp only [splitChar, ih]
    cases h : splitChar c xs with
    | nil => exact absurd h (splitChar_ne_nil c xs)
    | cons g gs =>
      by_cases hx : x = c <;> simp [hx]

theorem splitChar_of_not_mem {c : Char} {l : List Char} (h : c ∉ l) :
    splitChar c l = [l] := by
  induction l with
  | nil => rfl
  | cons x xs ih =>
    simp only [List.mem_cons, not_or] at h
    simp only [splitChar, ih h.2]
    rw [if_neg (fun hh => h.1 hh.symm)]

theorem string_mk_data (s : String) : String.mk s.data = s := rfl

theorem not_mem_of_not_contains {c : Char} {l : List Char} (h : ¬ l.contains c) : c ∉ l :=
  fun hm => h (List.elem_eq_true_of_mem hm)

theorem pySplit_single {k : String} (h : ¬ k.data.contains '.') :
    pySplit '.' k = [k] := by
  simp [pySplit, splitChar_of_not_mem (not_mem_of_not_contains h), string_mk_data]

theorem data_newKey_ne (pfx k : String) (h : pfx ≠ "") :
    (newKey pfx k).data = pfx.data ++ '.' :: k.data := by
  simp only [newKey, if_neg h, String.data_append]
  simp

theorem pySplit_newKey {pfx : String} {P : List String} {k : String}
    (hinv : SplitInv pfx P) (hk : ¬ k.data.contains '.') :
    pySplit '.' (newKey pfx k) = P ++ [k] := by
  rcases hinv with ⟨he, hP⟩ | ⟨hne, hsplit⟩
  · subst hP
    simp only [newKey, if_pos he, List.nil_append]
    exact pySplit_single hk
  · have hdata := data_newKey_ne pfx k hne
    simp only [pySplit, hdata, splitChar_append_cons, List.map_append]
    rw [splitChar_of_not_mem (not_mem_of_not_contains hk)]
    simp only [List.map_cons, List.map_nil, string_mk_data]
    rw [← hsplit]
    rfl

theorem newKey_ne_empty {pfx k : String} (hk : k.data ≠ []) :
    (newKey pfx k) ≠ "" := by
  by_cases hp : pfx = ""
  · simp only [newKey, if_pos hp]
    intro hh
    exact hk (congrArg String.data hh)
  · intro hh
    have h2 := congrArg String.data hh
    rw [data_newKey_ne pfx k hp] at h2
    have h0 : ("" : String).data = [] := rfl
    rw [h0] at h2
    simp at h2

theorem SplitInv_newKey {pfx : String} {P : List String} {k : String}
    (hinv : SplitInv pfx P) (hk : ¬ k.data.contains '.') (hk2 : k.data ≠ []) :
    SplitInv (newKey pfx k) (P ++ [k]) :=
  Or.inr ⟨newKey_ne_empty hk2, pySplit_newKey hinv hk⟩

theorem SplitInv_root : SplitInv "" [] := Or.inl ⟨rfl, rfl⟩

/-! ## Support lemmas: flattened keys are distinct, `dict(items)` is the
identity on them, and the `unflatten` fold decomposes -/

theorem bool_not_true {b : Bool} (h : (!b) = true) : ¬ b = true := by
  cases b with
  | false => simp
  | true => simp at h

theorem ne_nil_of_isEmpty_false {β : Type} {l : List β} (h : (!l.isEmpty) = true) :
    l ≠ [] := by
  cases l with
  | nil => simp at h
  | cons x xs => simp

theorem not_mem_of_not_containsStr {l : List String} {x : String}
    (h : ¬ l.contains x = true) : x ∉ l :=
  fun hm => h (List.elem_eq_true_of_mem hm)

theorem unflattenList_append {α : Type} (a b : List (String × α)) (acc : Tree α) :
    unflattenList (a ++ b) acc = (unflattenList a acc).bind (fun r => unflattenList b r) := by
  simp [unflattenList, List.foldlM_append]

theorem unflattenList_singleton {α : Type} (q : String) (a : α) (acc : Tree α) :
    unflattenList [(q, a)] acc = insertPath acc (pySplit '.' q) a := by
  simp only [unflattenList, List.foldlM_cons, List.foldlM_nil]
  cases insertPath acc (pySplit '.' q) a <;> rfl

theorem insertPath_single {α : Type} (t : Tree α) (k : String) (v : α) :
    insertPath t [k] v = some (assocSet t k (.leaf v)) := rfl

theorem flattenT_key_shape {α : Type} (t : Tree α) (pfx : String) (P : List String)
    (hw : wfTree t = true) (hinv : SplitInv pfx P) :
    ∀ q ∈ (flattenT t pfx).map Prod.fst,
      ∃ k tail, pySplit '.' q = P ++ k :: tail ∧ k ∈ t.map Prod.fst := by
  match t with
  | [] => intro q hq; simp [flattenT] at hq
  | (k, v) :: rest =>
    simp only [wfTree, Bool.and_eq_true] at hw
    obtain ⟨⟨⟨⟨h1, h2⟩, h3⟩, h4⟩, h5⟩ := hw
    have hknd : ¬ k.data.contains '.' = true := bool_not_true h2
    have hk2 : k.data ≠ [] := ne_nil_of_isEmpty_false h1
    intro q hq
    simp only [flattenT, List.map_append, List.mem_append] at hq
    rcases hq with hq | hq
    · cases v with
      | leaf a =>
        simp only [flattenV, List.map_cons, List.map_nil, List.mem_singleton] at hq
        subst hq
        exact ⟨k, [], pySplit_newKey hinv hknd, by simp⟩
      | node t2 =>
        simp only [flattenV] at hq
        simp only [wfValue, Bool.and_eq_true] at h4
        obtain ⟨k2, tail2, hsp, _⟩ := flattenT_key_shape t2 (newKey pfx k) (P ++ [k])
          h4.2 (SplitInv_newKey hinv hknd hk2) q hq
        exact ⟨k, k2 :: tail2, by rw [hsp]; simp, by simp⟩
    · obtain ⟨k2, tail2, hsp, hmem⟩ := flattenT_key_shape rest pfx P h5 hinv q hq
      exact ⟨k2, tail2, hsp, by simp [hmem]⟩

theorem flattenT_keys_nodup {α : Type} (t : Tree α) (pfx : String) (P : List String)
    (hw : wfTree t = true) (hinv : SplitInv pfx P) :
    ((flattenT t pfx).map Prod.fst).Nodup := by
  match t with
  | [] => simp [flattenT]
  | (k, v) :: rest =>
    simp only [wfTree, Bool.and_eq_true] at hw
    obtain ⟨⟨⟨⟨h1, h2⟩, h3⟩, h4⟩, h5⟩ := hw
    have hknd : ¬ k.data.contains '.' = true := bool_not_true h2
    have hk2 : k.data ≠ [] := ne_nil_of_isEmpty_false h1
    have hkrest : k ∉ rest.map Prod.fst := not_mem_of_not_containsStr (bool_not_true h3)
    simp only [flattenT, List.map_append]
    rw [List.nodup_append]
    refine ⟨?_, flattenT_keys_nodup rest pfx P h5 hinv, ?_⟩
    · cases v with
      | leaf a => simp [flattenV]
      | node t2 =>
        simp only [flattenV]
        simp only [wfValue, Bool.and_eq_true] at h4
        exact flattenT_keys_nodup t2 (newKey pfx k) (P ++ [k]) h4.2
          (SplitInv_newKey hinv hknd hk2)
    · intro q hqL hqR
      obtain ⟨k2, tail2, hsp2, hmem2⟩ := flattenT_key_shape rest pfx P h5 hinv q hqR
      have : ∃ tail, pySplit '.' q = P ++ k :: tail := by
        cases v with
        | leaf a =>
          simp only [flattenV, List.map_cons, List.map_nil, List.mem_singleton] at hqL
          subst hqL
          exact ⟨[], pySplit_newKey hinv hknd⟩
        | node t2 =>
          simp only [flattenV] at hqL
          simp only [wfValue, Bool.and_eq_true] at h4
          obtain ⟨k3, tail3, hsp3, _⟩ := flattenT_key_shape t2 (newKey pfx k) (P ++ [k])
            h4.2 (SplitInv_newKey hinv hknd hk2) q hqL
          exact ⟨k3 :: tail3, by rw [hsp3]; simp⟩
      obtain ⟨tail, hsp⟩ := this
      rw [hsp] at hsp2
      have hcons := List.append_cancel_left hsp2
      have hkk : k = k2 := (List.cons.injEq _ _ _ _).mp hcons |>.1
      exact hkrest (hkk ▸ hmem2)

theorem toDict_go_eq {β : Type} :
    ∀ (l acc : List (String × β)), ((acc ++ l).map Prod.fst).Nodup →
      List.foldl (fun acc kv => assocSet acc kv.1 kv.2) acc l = acc ++ l := by
  intro l
  induction l with
  | nil => intro acc _; simp
  | cons x rest ih =>
    intro acc hnd
    obtain ⟨k, v⟩ := x
    have hknotin : k ∉ acc.map Prod.fst := by
      simp only [List.map_append, List.nodup_append, List.map_cons] at hnd
      intro hm
      exact hnd.2.2 hm (by simp)
    simp only [List.foldl_cons]
    rw [assocSet_of_not_mem v hknotin]
    rw [ih (acc ++ [(k, v)]) (by simpa using hnd)]
    simp

theorem toDict_eq_self {β : Type} {l : List (String × β)}
    (h : (l.map Prod.fst).Nodup) : toDict l = l :=
  toDict_go_eq l [] (by simpa using h)

mutual

/-- Inserting the flattened entries of a non-empty well-formed subtree at
a fresh path `P` materializes exactly that subtree at `P`. -/
theorem unflatten_first {α : Type} (t : Tree α) (pfx : String) (P : List String) (acc : Tree α)
    (hw : wfTree t = true) (hne : t ≠ []) (hgc : getNodeC acc P = some [])
    (hinv : SplitInv pfx P) :
    unflattenList (flattenT t pfx) acc = some (setNodeC acc P t) := by
  match t with
  | [] => exact absurd rfl hne
  | (k, v) :: rest =>
    simp only [wfTree, Bool.and_eq_true] at hw
    obtain ⟨⟨⟨⟨h1, h2⟩, h3⟩, h4⟩, h5⟩ := hw
    have hknd : ¬ k.data.contains '.' = true := bool_not_true h2
    have hk2 : k.data ≠ [] := ne_nil_of_isEmpty_false h1
    have hkrest : k ∉ rest.map Prod.fst := not_mem_of_not_containsStr (bool_not_true h3)
    simp only [flattenT]
    rw [unflattenList_append]
    cases v with
    | leaf a =>
      rw [show flattenV (TreeValue.leaf a) (newKey pfx k) = [(newKey pfx k, a)] from rfl]
      rw [unflattenList_singleton, pySplit_newKey hinv hknd,
        insertPath_append hgc [k] (by simp) a, insertPath_single]
      simp only [Option.map_some', Option.some_bind]
      have hs2 : getNodeS (setNodeC acc P (assocSet [] k (TreeValue.leaf a))) P =
          some (assocSet [] k (TreeValue.leaf a)) := getNodeS_setNodeC hgc _
      rw [unflatten_rest rest pfx P _ _ h5 hs2 (by simp [assocSet, hkrest]) hinv]
      rw [setNodeC_setNodeC hgc]
      rfl
    | node t2 =>
      simp only [wfValue, Bool.and_eq_true] at h4
      have ht2ne : t2 ≠ [] := ne_nil_of_isEmpty_false h4.1
      rw [show flattenV (TreeValue.node t2) (newKey pfx k) = flattenT t2 (newKey pfx k) from rfl]
      have hgc2 : getNodeC acc (P ++ [k]) = some [] := by
        rw [getNodeC_append, hgc]
        simp [getNodeC, dictLookup]
      rw [unflatten_first t2 (newKey pfx k) (P ++ [k]) acc h4.2 ht2ne hgc2
        (SplitInv_newKey hinv hknd hk2)]
      rw [setNodeC_append hgc [k] t2]
      simp only [Option.some_bind]
      have hset : setNodeC ([] : Tree α) [k] t2 = [(k, TreeValue.node t2)] := rfl
      rw [hset]
      have hs2 : getNodeS (setNodeC acc P [(k, TreeValue.node t2)]) P =
          some [(k, TreeValue.node t2)] := getNodeS_setNodeC hgc _
      rw [unflatten_rest rest pfx P _ _ h5 hs2 (by simp [hkrest]) hinv]
      rw [setNodeC_setNodeC hgc]
      rfl

/-- Inserting the flattened entries of a well-formed tree at a path `P`
whose sub-mapping already holds `sub` (with keys disjoint from the
tree's) appends the tree's reconstruction after `sub`. -/
theorem unflatten_rest {α : Type} (t : Tree α) (pfx : String) (P : List String)
    (acc sub : Tree α) (hw : wfTree t = true) (hS : getNodeS acc P = some sub)
    (hdisj : List.Disjoint (sub.map Prod.fst) (t.map Prod.fst))
    (hinv : SplitInv pfx P) :
    unflattenList (flattenT t pfx) acc = some (setNodeC acc P (sub ++ t)) := by
  match t with
  | [] =>
    rw [List.append_nil, setNodeC_self hS]
    rfl
  | (k, v) :: rest =>
    simp only [wfTree, Bool.and_eq_true] at hw
    obtain ⟨⟨⟨⟨h1, h2⟩, h3⟩, h4⟩, h5⟩ := hw
    have hknd : ¬ k.data.contains '.' = true := bool_not_true h2
    have hk2 : k.data ≠ [] := ne_nil_of_isEmpty_false h1
    have hkrest : k ∉ rest.map Prod.fst := not_mem_of_not_containsStr (bool_not_true h3)
    have hksub : k ∉ sub.map Prod.fst := fun hm => hdisj hm (by simp)
    have hdisjrest : List.Disjoint (sub.map Prod.fst) (rest.map Prod.fst) :=
      fun a ha hb => hdisj ha (by simp [hb])
    have hgc : getNodeC acc P = some sub := getNodeC_of_getNodeS hS
    simp only [flattenT]
    rw [unflattenList_append]
    cases v with
    | leaf a =>
      rw [show flattenV (TreeValue.leaf a) (newKey pfx k) = [(newKey pfx k, a)] from rfl]
      rw [unflattenList_singleton, pySplit_newKey hinv hknd,
        insertPath_append hgc [k] (by simp) a, insertPath_single]
      simp only [Option.map_some', Option.some_bind]
      rw [assocSet_of_not_mem (TreeValue.leaf a) hksub]
      have hs2 : getNodeS (setNodeC acc P (sub ++ [(k, TreeValue.leaf a)])) P =
          some (sub ++ [(k, TreeValue.leaf a)]) := getNodeS_setNodeC hgc _
      have hdisj2 : List.Disjoint ((sub ++ [(k, TreeValue.leaf a)]).map Prod.fst)
          (rest.map Prod.fst) := by
        simp only [List.map_append, List.map_cons, List.map_nil]
        intro a2 ha2 hb2
        rcases List.mem_append.mp ha2 with hc | hc
        · exact hdisjrest hc hb2
        · simp at hc
          subst hc
          exact hkrest hb2
      rw [unflatten_rest rest pfx P _ _ h5 hs2 hdisj2 hinv]
      rw [setNodeC_setNodeC hgc]
      rw [List.append_assoc]
      rfl
    | node t2 =>
      simp only [wfValue, Bool.and_eq_true] at h4
      have ht2ne : t2 ≠ [] := ne_nil_of_isEmpty_false h4.1
      rw [show flattenV (TreeValue.node t2) (newKey pfx k) = flattenT t2 (newKey pfx k) from rfl]
      have hnk : dictLookup sub k = none := dictLookup_eq_none_of_not_mem hksub
      have hgc2 : getNodeC acc (P ++ [k]) = some [] := by
        rw [getNodeC_append, hgc]
        simp [getNodeC, hnk]
      rw [unflatten_first t2 (newKey pfx k) (P ++ [k]) acc h4.2 ht2ne hgc2
        (SplitInv_newKey hinv hknd hk2)]
      rw [setNodeC_append hgc [k] t2]
      simp only [Option.some_bind]
      have hset : setNodeC sub [k] t2 = assocSet sub k (TreeValue.node t2) := by
        simp [setNodeC, childC, hnk]
      rw [hset, assocSet_of_not_mem (TreeValue.node t2) hksub]
      have hs2 : getNodeS (setNodeC acc P (sub ++ [(k, TreeValue.node t2)])) P =
          some (sub ++ [(k, TreeValue.node t2)]) := getNodeS_setNodeC hgc _
      have hdisj2 : List.Disjoint ((sub ++ [(k, TreeValue.node t2)]).map Prod.fst)
          (rest.map Prod.fst) := by
        simp only [List.map_append, List.map_cons, List.map_nil]
        intro a2 ha2 hb2
        rcases List.mem_append.mp ha2 with hc | hc
        · exact hdisjrest hc hb2
        · simp at hc
          subst hc
          exact hkrest hb2
      rw [unflatten_rest rest pfx P _ _ h5 hs2 hdisj2 hinv]
      rw [setNodeC_setNodeC hgc]
      rw [List.append_assoc]
      rfl

end

/-! ## Claim C1: the flatten/unflatten round trip -/

/-- C1 counterexample: two dot-free trees on which
`unflatten(flatten(T)) == T` fails.  `{"a": {}}` flattens to `{}` (an
empty nested mapping contributes no items), and `{"": {"b": 0}}`
flattens to `{"b": 0}` (an empty parent key is falsy, so the prefix is
dropped); neither key contains the separator `"."`. -/
theorem C1_counterexample :
    (noDotTree [("a", TreeValue.node ([] : Tree Nat))] = true ∧
      unflatten (flatten [("a", TreeValue.node ([] : Tree Nat))]) ≠
        some [("a", TreeValue.node ([] : Tree Nat))]) ∧
    (noDotTree [("", TreeValue.node [("b", TreeValue.leaf (0 : Nat))])] = true ∧
      unflatten (flatten [("", TreeValue.node [("b", TreeValue.leaf (0 : Nat))])]) ≠
        some [("", TreeValue.node [("b", TreeValue.leaf (0 : Nat))])]) := by
  decide

/-- C1 amended: for every nested tree with string keys whose keys are
non-empty, contain no separator `"."` and are distinct at each level,
and whose nested mappings are all non-empty,
`unflatten(flatten(T)) = T`.  (The claim's bare no-dotted-keys
precondition is not enough: empty nested mappings and an empty
top-level key with a mapping value break the round trip, witness
`C1_counterexample`.) -/
theorem C1_roundtrip {α : Type} (t : Tree α) (h : wfTree t = true) :
    unflatten (flatten t) = some t := by
  have hnodup := flattenT_keys_nodup t "" [] h SplitInv_root
  rw [flatten, toDict_eq_self hnodup]
  have hrt := unflatten_rest t "" [] [] [] h rfl (by intro a ha; simp at ha) SplitInv_root
  simpa [unflattenList, unflatten, setNodeC] using hrt

/-- C1 witness: the round trip on a concrete well-formed nested tree. -/
theorem C1_roundtrip_witness :
    wfTree [("a", TreeValue.node [("b", TreeValue.leaf (1 : Nat)), ("c", TreeValue.leaf 2)]),
      ("d", TreeValue.leaf 3)] = true ∧
    unflatten (flatten [("a", TreeValue.node [("b", TreeValue.leaf (1 : Nat)),
      ("c", TreeValue.leaf 2)]), ("d", TreeValue.leaf 3)]) =
      some [("a", TreeValue.node [("b", TreeValue.leaf (1 : Nat)), ("c", TreeValue.leaf 2)]),
        ("d", TreeValue.leaf 3)] :=
  ⟨by decide, C1_roundtrip _ (by decide)⟩

/-! ## Claims C2 and C3: the pyproject structural diff -/

theorem key_absent_eq {α : Type} [DecidableEq α] (l : List (String × α)) (k : String) :
    (!(l.map Prod.fst).contains k) = l.all (fun kv2 => !(kv2.1 = k)) := by
  induction l with
  | nil => rfl
  | cons x r ih =>
    have hhead : (!(k == x.1)) = !(decide (x.1 = k)) := by
      by_cases hx : x.1 = k
      · simp [hx]
      · have hnk : ¬ k = x.1 := fun hh => hx hh.symm
        simp [hx, hnk]
    simp only [List.map_cons, List.contains_cons, List.all_cons, Bool.not_or, ih, hhead]

/-- C2 counterexample: with expected `{"a": 0}` and actual `{"a": 1}`
the key `"a"` maps to a different value, so the claim requires the
missing tree to contain `"a"` with value `0`; the code's missing tree
(`missing_dict actual expected`, the tree serialized into the NIP104
diagnostic) is empty instead, differing from the spec-stated diff
`specMissing expected actual`. -/
theorem C2_counterexample :
    PyProjectTomlChecker.missing_dict [("a", TreeValue.leaf (1 : Nat))]
        [("a", TreeValue.leaf 0)] = some [] ∧
    specMissing [("a", TreeValue.leaf (0 : Nat))] [("a", TreeValue.leaf 1)] =
      some [("a", TreeValue.leaf 0)] ∧
    PyProjectTomlChecker.missing_dict [("a", TreeValue.leaf (1 : Nat))]
        [("a", TreeValue.leaf 0)] ≠
      specMissing [("a", TreeValue.leaf (0 : Nat))] [("a", TreeValue.leaf 1)] := by
  decide

/-- C2 amended: the rule check yields no diagnostic exactly when every
flattened `(key, value)` pair of `expected` occurs in `actual`'s
flattening; and the reported missing tree is the nested reconstruction
of exactly those leaves of `expected`'s flattening whose dotted key is
absent from `actual`'s flattening — a key present with a different
value triggers the diagnostic but does not appear in the missing
tree. -/
theorem C2_missing_tree {α : Type} [DecidableEq α] (expected actual : Tree α) :
    (PyProjectTomlChecker.check_rules actual expected = some [] ↔
      ∀ kv ∈ flatten expected, kv ∈ flatten actual) ∧
    PyProjectTomlChecker.missing_dict actual expected =
      unflatten ((flatten expected).filter
        (fun kv => (flatten actual).all (fun kv2 => !(kv2.1 = kv.1)))) := by
  constructor
  · constructor
    · intro hres kv hkv
      by_contra hnot
      have hfalse : itemsSubset (flatten expected) (flatten actual) = false := by
        cases hsub : itemsSubset (flatten expected) (flatten actual) with
        | false => rfl
        | true =>
          simp only [itemsSubset, List.all_eq_true, List.any_eq_true,
            decide_eq_true_eq] at hsub
          obtain ⟨kv2, hkv2, heq⟩ := hsub kv hkv
          exact absurd (heq ▸ hkv2) hnot
      rw [PyProjectTomlChecker.check_rules, if_neg (by simp [hfalse])] at hres
      cases hmd : PyProjectTomlChecker.missing_dict actual expected with
      | none => rw [hmd] at hres; exact Option.noConfusion hres
      | some md =>
        rw [hmd] at hres
        simp at hres
    · intro h
      have hsub : itemsSubset (flatten expected) (flatten actual) = true := by
        simp only [itemsSubset, List.all_eq_true, List.any_eq_true, decide_eq_true_eq]
        intro kv hkv
        exact ⟨kv, h kv hkv, rfl⟩
      simp [PyProjectTomlChecker.check_rules, hsub]
  · rw [PyProjectTomlChecker.missing_dict]
    congr 1
    exact List.filter_congr (fun kv _ => key_absent_eq (flatten actual) kv.1)

/-- C2 witness: the amended characterization at concrete trees, on both
sides — a diagnostic-free pair, and the key-absent filter on the
counterexample-shaped pair. -/
theorem C2_missing_tree_witness :
    PyProjectTomlChecker.check_rules
        [("a", TreeValue.leaf (1 : Nat)), ("b", TreeValue.leaf 2)]
        [("a", TreeValue.leaf 1)] = some [] :=
  (C2_missing_tree [("a", TreeValue.leaf (1 : Nat))]
    [("a", TreeValue.leaf (1 : Nat)), ("b", TreeValue.leaf 2)]).1.mpr (by decide)

/-- C3: when every flattened `(key, value)` pair of `expected` is
present in `actual`'s flattening, the pyproject rule check returns
normally with no diagnostic. -/
theorem C3_subset_no_diagnostic {α : Type} [DecidableEq α] (expected actual : Tree α)
    (h : ∀ kv ∈ flatten expected, kv ∈ flatten actual) :
    PyProjectTomlChecker.check_rules actual expected = some [] := by
  have hsub : itemsSubset (flatten expected) (flatten actual) = true := by
    simp only [itemsSubset, List.all_eq_true, List.any_eq_true, decide_eq_true_eq]
    intro kv hkv
    exact ⟨kv, h kv hkv, rfl⟩
  simp [PyProjectTomlChecker.check_rules, hsub]

/-- C3 witness: a concrete containment instance. -/
theorem C3_subset_no_diagnostic_witness :
    PyProjectTomlChecker.check_rules
        [("a", TreeValue.node [("b", TreeValue.leaf (1 : Nat))]), ("c", TreeValue.leaf 2)]
        [("a", TreeValue.node [("b", TreeValue.leaf 1)])] = some [] :=
  C3_subset_no_diagnostic [("a", TreeValue.node [("b", TreeValue.leaf (1 : Nat))])]
    [("a", TreeValue.node [("b", TreeValue.leaf 1)]), ("c", TreeValue.leaf 2)] (by decide)

/-! ## Claim C5: the existence check -/

/-- C5: with the `files` override when present (else the checker's
default), `check_exists` yields exactly one NIP102 "missing file"
diagnostic when the file should exist but is absent, exactly one NIP103
"should be deleted" diagnostic when it should not exist but is present,
and nothing in the two consistent cases. -/
theorem C5_check_exists (files : List (String × Bool)) (d : Bool) (name : String) (ex : Bool) :
    ((dictLookup files name).getD d = true → ex = false →
      check_exists files d name ex = [nitpick_error 102 ("Missing file " ++ pyRepr name)]) ∧
    ((dictLookup files name).getD d = false → ex = true →
      check_exists files d name ex =
        [nitpick_error 103 ("File " ++ pyRepr name ++ " should be deleted")]) ∧
    ((dictLookup files name).getD d = ex → check_exists files d name ex = []) := by
  refine ⟨fun hs hx => ?_, fun hs hx => ?_, fun hse => ?_⟩
  · simp [check_exists, hs, hx]
  · simp [check_exists, hs, hx]
  · cases hx : ex with
    | true => simp [check_exists, hse, hx]
    | false => simp [check_exists, hse, hx]

/-- C5 witness: `should_exist` overridden to `true` by the style's
`files` table, file absent on disk. -/
theorem C5_check_exists_witness :
    check_exists [("pyproject.toml", true)] false "pyproject.toml" false =
      [nitpick_error 102 ("Missing file " ++ pyRepr "pyproject.toml")] :=
  (C5_check_exists [("pyproject.toml", true)] false "pyproject.toml" false).1 (by decide) rfl

/-! ## Claim C10: the diagnostic constructor -/

/-- C10: every diagnostic built by `nitpick_error` is positioned at line
1, column 0 — never a location inside the checked file — and its message
is `"NIP"` immediately followed by the numeric error code. -/
theorem C10_nitpick_error_shape (n : Nat) (msg : String) :
    (nitpick_error n msg).line = 1 ∧ (nitpick_error n msg).col = 0 ∧
    ∃ rest, (nitpick_error n msg).message = "NIP" ++ (toString n ++ rest) := by
  refine ⟨rfl, rfl, " " ++ msg, ?_⟩
  simp [nitpick_error, String.append_assoc]

/-! ## Claim C6: the text plugin's missing-lines check -/

theorem mem_orderedSet_go (l acc : List String) (x : String) :
    x ∈ l.foldl (fun acc y => if acc.contains y then acc else acc ++ [y]) acc ↔
      x ∈ acc ∨ x ∈ l := by
  induction l generalizing acc with
  | nil => simp
  | cons y r ih =>
    simp only [List.foldl_cons]
    by_cases hy : acc.contains y
    · rw [if_pos hy, ih]
      constructor
      · rintro (h | h)
        · exact Or.inl h
        · exact Or.inr (List.mem_cons_of_mem y h)
      · rintro (h | h)
        · exact Or.inl h
        · rcases List.mem_cons.mp h with rfl | h2
          · exact Or.inl (List.elem_iff.mp hy)
          · exact Or.inr h2
    · rw [if_neg hy, ih]
      simp only [List.mem_append, List.mem_singleton, List.mem_cons]
      tauto

theorem mem_orderedSet (l : List String) (x : String) :
    x ∈ orderedSet l ↔ x ∈ l := by
  simpa [orderedSet] using mem_orderedSet_go l [] x

theorem nodup_orderedSet_go (l : List String) :
    ∀ acc : List String, acc.Nodup →
      (l.foldl (fun acc y => if acc.contains y then acc else acc ++ [y]) acc).Nodup := by
  induction l with
  | nil => intro acc h; simpa
  | cons y r ih =>
    intro acc h
    simp only [List.foldl_cons]
    by_cases hy : acc.contains y
    · rw [if_pos hy]; exact ih acc h
    · rw [if_neg hy]
      refine ih (acc ++ [y]) ?_
      rw [List.nodup_append]
      exact ⟨h, List.nodup_singleton y,
        fun a ha hb => hy (by simp at hb; exact hb ▸ List.elem_eq_true_of_mem ha)⟩

theorem nodup_orderedSet (l : List String) : (orderedSet l).Nodup :=
  nodup_orderedSet_go l [] List.nodup_nil

theorem mem_pySorted (l : List String) (x : String) : x ∈ pySorted l ↔ x ∈ l :=
  (List.mergeSort_perm l _).mem_iff

theorem nodup_pySorted {l : List String} (h : l.Nodup) : (pySorted l).Nodup :=
  ((List.mergeSort_perm l _).nodup_iff).mpr h

theorem sorted_pySorted (l : List String) :
    List.Pairwise (fun a b : String => a ≤ b) (pySorted l) := by
  have hs := @List.sorted_mergeSort String (fun a b : String => decide (a ≤ b))
    (fun a b c hab hbc => decide_eq_true (le_trans (of_decide_eq_true hab) (of_decide_eq_true hbc)))
    (fun a b => by rcases le_total a b with h | h <;> simp [h]) l
  exact hs.imp (fun h => of_decide_eq_true h)

/-- C6: the text checker is order-insensitive and reports exactly the
expected lines absent from the file's lines (split on line breaks): no
diagnostic when every expected line occurs somewhere in the file,
otherwise exactly one diagnostic with code `error_base_number + 2`
listing the missing lines, deduplicated, in sorted order. -/
theorem C6_text_missing_lines (expected_lines : List String) (file_text : String) :
    (TextPlugin.check_rules expected_lines file_text = [] ↔
      ∀ l ∈ expected_lines, l ∈ pySplit '\n' file_text) ∧
    ((¬ ∀ l ∈ expected_lines, l ∈ pySplit '\n' file_text) →
      ∃ ms : List String,
        TextPlugin.check_rules expected_lines file_text =
          [⟨TextPlugin.error_base_number + 2, " has missing lines:",
            String.intercalate "\n" ms⟩] ∧
        ms.Nodup ∧ List.Pairwise (fun a b : String => a ≤ b) ms ∧
        (∀ l, l ∈ ms ↔ l ∈ expected_lines ∧ l ∉ pySplit '\n' file_text)) := by
  have hkey : ((orderedSet expected_lines).filter
      (fun l => !(orderedSet (pySplit '\n' file_text)).contains l) = []) ↔
      ∀ l ∈ expected_lines, l ∈ pySplit '\n' file_text := by
    rw [List.filter_eq_nil_iff]
    constructor
    · intro h l hl
      have := h l ((mem_orderedSet expected_lines l).mpr hl)
      simp only [Bool.not_eq_true', Bool.not_eq_false] at this
      exact (mem_orderedSet _ l).mp (List.elem_iff.mp this)
    · intro h a ha
      simp only [Bool.not_eq_true', Bool.not_eq_false]
      exact List.elem_eq_true_of_mem
        ((mem_orderedSet _ a).mpr (h a ((mem_orderedSet expected_lines a).mp ha)))
  constructor
  · constructor
    · intro hres
      rw [← hkey]
      by_contra hne
      rw [TextPlugin.check_rules] at hres
      rw [if_neg (by simpa [List.isEmpty_eq_false] using hne)] at hres
      exact List.noConfusion hres
    · intro h
      rw [TextPlugin.check_rules]
      rw [if_pos (List.isEmpty_iff.mpr (hkey.mpr h))]
  · intro hne
    refine ⟨pySorted ((orderedSet expected_lines).filter
      (fun l => !(orderedSet (pySplit '\n' file_text)).contains l)), ?_, ?_, ?_, ?_⟩
    · rw [TextPlugin.check_rules]
      rw [if_neg (by simpa [List.isEmpty_eq_false] using (hkey.not.mpr hne))]
      rfl
    · exact nodup_pySorted (List.Nodup.filter _ (nodup_orderedSet expected_lines))
    · exact sorted_pySorted _
    · intro l
      rw [mem_pySorted, List.mem_filter, mem_orderedSet]
      constructor
      · rintro ⟨h1, h2⟩
        refine ⟨h1, fun hmem => ?_⟩
        simp only [Bool.not_eq_true', Bool.not_eq_false] at h2
        have h3 : (orderedSet (pySplit '\n' file_text)).contains l = true :=
          List.elem_eq_true_of_mem ((mem_orderedSet _ l).mpr hmem)
        rw [h2] at h3
        exact Bool.noConfusion h3
      · rintro ⟨h1, h2⟩
        refine ⟨h1, ?_⟩
        simp only [Bool.not_eq_true', Bool.not_eq_false]
        cases hc : (orderedSet (pySplit '\n' file_text)).contains l with
        | false => rfl
        | true => exact absurd ((mem_orderedSet _ l).mp (List.elem_iff.mp hc)) h2

/-- C6 witness: the spec's own example — expected `["abc", "def"]`,
file text `"abc\n"` — yields one NIP352 diagnostic listing `"def"`. -/
theorem C6_text_missing_lines_witness :
    ∃ ms : List String,
      TextPlugin.check_rules ["abc", "def"] "abc\n" =
        [⟨TextPlugin.error_base_number + 2, " has missing lines:",
          String.intercalate "\n" ms⟩] ∧
      ms.Nodup ∧ List.Pairwise (fun a b : String => a ≤ b) ms ∧
      (∀ l, l ∈ ms ↔ l ∈ ["abc", "def"] ∧ l ∉ pySplit '\n' "abc\n") :=
  (C6_text_missing_lines ["abc", "def"] "abc\n").2 (by decide)

/-! ## Claim C4: the directory-tree climb -/

theorem firstPatternMatch_eq (fs : FS) (dir : List String) (pats : List String) :
    firstPatternMatch fs dir pats =
      (pats.find? (fun p => !(fs.glob dir p).isEmpty)).map (fs.glob dir) := by
  induction pats with
  | nil => rfl
  | cons p rest ih =>
    simp only [firstPatternMatch]
    cases hg : (fs.glob dir p).isEmpty with
    | true =>
      rw [if_pos rfl, ih, List.find?_cons_of_neg _ (by simp [hg])]
    | false =>
      rw [if_neg (by simp), List.find?_cons_of_pos _ (by simp [hg]), Option.map_some']

theorem firstPatternMatch_none_iff (fs : FS) (dir : List String) (pats : List String) :
    firstPatternMatch fs dir pats = none ↔ dirMatches fs pats dir = false := by
  rw [firstPatternMatch_eq, dirMatches, Option.map_eq_none', List.find?_eq_none,
    List.any_eq_false]

theorem climbLoop_eq (fs : FS) (pats : List String) : ∀ rev : List String,
    climbLoop fs pats rev =
      (strictAncestorsRev rev).findSome? (fun dir => firstPatternMatch fs dir pats) := by
  intro rev
  induction rev with
  | nil => rfl
  | cons k r ih =>
    rw [climbLoop, strictAncestorsRev, List.findSome?_cons]
    cases hf : firstPatternMatch fs (k :: r).reverse pats with
    | some found => rfl
    | none => exact ih

theorem findSome?_eq_of_find? {β γ : Type} (f : β → Option γ) (p : β → Bool)
    (hfp : ∀ x, f x = none ↔ p x = false) :
    ∀ (l : List β) (d : β), l.find? p = some d → l.findSome? f = f d := by
  intro l
  induction l with
  | nil => intro d h; exact Option.noConfusion h
  | cons a r ih =>
    intro d h
    by_cases hpa : p a = true
    · rw [List.find?_cons_of_pos _ hpa, Option.some.injEq] at h
      subst h
      cases hf : f a with
      | none => rw [(hfp a).mp hf] at hpa; exact Bool.noConfusion hpa
      | some b => rw [List.findSome?_cons, hf]
    · have hpa2 : p a = false := by cases hp : p a with
        | true => exact absurd hp hpa
        | false => rfl
      rw [List.find?_cons_of_neg _ hpa] at h
      rw [List.findSome?_cons, (hfp a).mpr hpa2]
      exact ih d h

/-- C4 counterexample: with a pattern that matches only at the
filesystem root `/`, the climb from `/a` returns `none` even though an
ancestor directory up to the root — the root itself — matches: the
loop `while current_dir.root != str(current_dir)` exits before ever
globbing at `/`. -/
theorem C4_counterexample :
    climb_directory_tree fsRootOnly ["a"] ["marker"] = none ∧
    fsRootOnly.glob [] "marker" ≠ [] := by decide

/-- C4 amended: the climb returns `none` exactly when no ancestor
directory *strictly below the filesystem root* (the start directory
included, the root itself excluded — it is never examined) matches any
pattern; otherwise it returns, at the nearest such matching ancestor,
the glob matches of the first pattern that has any there. -/
theorem C4_climb_characterization (fs : FS) (start : List String) (patterns : List String) :
    (climb_directory_tree fs start patterns = none ↔
      ∀ d ∈ strictAncestors (if fs.isFile start then start.dropLast else start),
        dirMatches fs patterns d = false) ∧
    (∀ d, (strictAncestors (if fs.isFile start then start.dropLast else start)).find?
        (dirMatches fs patterns) = some d →
      climb_directory_tree fs start patterns =
        (patterns.find? (fun p => !(fs.glob d p).isEmpty)).map (fs.glob d)) := by
  constructor
  · rw [climb_directory_tree, climbLoop_eq, strictAncestors, List.findSome?_eq_none_iff]
    constructor
    · intro h d hd
      exact (firstPatternMatch_none_iff fs d patterns).mp (h d hd)
    · intro h d hd
      exact (firstPatternMatch_none_iff fs d patterns).mpr (h d hd)
  · intro d hd
    rw [climb_directory_tree, climbLoop_eq, ← firstPatternMatch_eq]
    exact findSome?_eq_of_find? _ _
      (fun x => firstPatternMatch_none_iff fs x patterns) _ d hd

/-- C4 witness: with the marker at `/a` only, climbing from `/a/b/c`
finds it at the nearest matching ancestor `/a`. -/
theorem C4_climb_characterization_witness :
    climb_directory_tree
        ⟨fun _ => false, fun _ => false,
         fun d p => if d == ["a"] && p == "marker" then [["a", "marker"]] else []⟩
        ["a", "b", "c"] ["marker"] =
      (["marker"].find? (fun p =>
        !(FS.glob ⟨fun _ => false, fun _ => false,
          fun d p => if d == ["a"] && p == "marker" then [["a", "marker"]] else []⟩
          ["a"] p).isEmpty)).map
        (FS.glob ⟨fun _ => false, fun _ => false,
          fun d p => if d == ["a"] && p == "marker" then [["a", "marker"]] else []⟩ ["a"]) :=
  (C4_climb_characterization
    ⟨fun _ => false, fun _ => false,
     fun d p => if d == ["a"] && p == "marker" then [["a", "marker"]] else []⟩
    ["a", "b", "c"] ["marker"]).2 ["a"] (by decide)

/-! ## Claim C7: the primary-file guard and the primary-file rule -/

theorem getD_find?_chain (w : World) (root f : List String) :
    (((ROOT_PYTHON_FILES.map (fun n => root ++ [n]) ++ w.fs.glob root "*.py").find?
      (fun p => w.fs.pathExists p)).getD f) = primary_file_rule w root f := by
  rw [primary_file_rule, List.find?_append]
  cases h1 : (ROOT_PYTHON_FILES.map (fun n => root ++ [n])).find? (fun p => w.fs.pathExists p) with
  | some p => simp [Option.or]
  | none =>
    cases h2 : (w.fs.glob root "*.py").find? (fun p => w.fs.pathExists p) with
    | some p => simp [Option.or]
    | none => simp [Option.or]

theorem find_main_python_file_uncached (w : World) (c1 : Cache) (root f : List String)
    (hc : c1.main_python_file = none) :
    find_main_python_file w c1 root f =
      (match relative_to (primary_file_rule w root f) w.cwd with
       | some rel =>
          (.ok (primary_file_rule w root f), { c1 with main_python_file := some rel })
       | none => (.error .valueError, c1)) := by
  simp only [find_main_python_file, hc]
  rw [getD_find?_chain]

/-- C7: in a project with a determined root, a run on a file other than
the primary file yields the empty diagnostic sequence, whatever the
checker loop would report; and on a cache miss the primary file is
chosen by the first-existing cascade (conventional entry-point names,
then the root's source files, then the file under inspection) and the
choice is stored in the cache relative to the working directory. -/
theorem C7_primary_guard (w : World) (cache : Cache) (f root main : List String)
    (c1 c2 : Cache)
    (h1 : find_root_dir w cache f = (.ok (some root), c1))
    (h2 : find_main_python_file w c1 root f = (.ok main, c2)) :
    (f ≠ main → run w cache f = (.ok [], c2)) ∧
    (c1.main_python_file = none →
      main = primary_file_rule w root f ∧
      ∃ rel, relative_to main w.cwd = some rel ∧ c2.main_python_file = some rel) := by
  constructor
  · intro hne
    simp only [run, h1, h2]
    rw [if_pos hne]
  · intro hc
    rw [find_main_python_file_uncached w c1 root f hc] at h2
    cases hrel : relative_to (primary_file_rule w root f) w.cwd with
    | none => rw [hrel] at h2; simp at h2
    | some rel =>
      rw [hrel] at h2
      simp only [Prod.mk.injEq, Except.ok.injEq] at h2
      obtain ⟨hmain, hc2⟩ := h2
      subst hmain
      exact ⟨rfl, rel, hrel, by rw [← hc2]⟩

/-- C7 witness: in the `/proj` fixture the primary file is `setup.py`;
running on `/proj/main.py` yields no diagnostics although the checker
loop would report a violation, and the choice is cached. -/
theorem C7_primary_guard_witness :
    run worldProj cache0 ["proj", "main.py"] =
      (.ok [], ⟨some ["proj"], some ["proj", "setup.py"], none⟩) ∧
    (["proj", "setup.py"] : List String) = primary_file_rule worldProj ["proj"] ["proj", "main.py"] := by
  have h := C7_primary_guard worldProj cache0 ["proj", "main.py"] ["proj"]
    ["proj", "setup.py"] ⟨some ["proj"], none, none⟩
    ⟨some ["proj"], some ["proj", "setup.py"], none⟩ rfl rfl
  exact ⟨h.1 (by decide), (h.2 rfl).1⟩

/-! ## Claim C8: anticipated resolution failures are one diagnostic each -/

/-- C8: for each anticipated failure — undeterminable project root,
failing remote fetch of an explicitly configured remote style, an
explicitly configured local style that does not exist, and no style
found anywhere up the directory tree — `run` terminates normally
(no unhandled fault) yielding exactly one code-100 resolution
diagnostic and no per-checker diagnostics.  The style failures are
stated on the run that performs resolution, i.e. the one whose file is
the primary file (any other run short-circuits to `[]` first,
`C7_primary_guard`). -/
theorem C8_resolution_failures (w : World) (cache : Cache) (f : List String) :
    (cache.root_dir = none →
      climb_directory_tree w.fs f ROOT_FILES = none →
      run w cache f =
        (.ok [nitpick_error 100 "No root dir found (is this a Python project?)"], cache)) ∧
    (∀ root c1 c2,
      find_root_dir w cache f = (.ok (some root), c1) →
      find_main_python_file w c1 root f = (.ok f, c2) →
      c2.style = none →
      ((w.pyprojectStyle root).startsWith "http" = true →
        w.http (w.pyprojectStyle root) = none →
        run w cache f = (.ok [nitpick_error 100
          ("Error <response> fetching style URL " ++ w.pyprojectStyle root)], c2)) ∧
      ((w.pyprojectStyle root).startsWith "http" = false →
        w.pyprojectStyle root ≠ "" →
        w.fs.pathExists (w.resolveStr (w.pyprojectStyle root)) = false →
        run w cache f = (.ok [nitpick_error 100
          ("Style file does not exist: " ++ w.pyprojectStyle root)], c2)) ∧
      (w.pyprojectStyle root = "" →
        climb_directory_tree w.fs root [NITPICK_STYLE_TOML] = none →
        run w cache f = (.ok [nitpick_error 100 ("Style not configured on " ++
          PYPROJECT_TOML ++ " and " ++ NITPICK_STYLE_TOML ++
          " not found in directory tree")], c2))) := by
  constructor
  · intro hcache hclimb
    have hfr : find_root_dir w cache f = (.ok none, cache) := by
      simp only [find_root_dir, hcache, hclimb]
    simp only [run, hfr]
  · intro root c1 c2 h1 h2 hstyle
    refine ⟨fun hpre hhttp => ?_, fun hpre hne hex => ?_, fun hempty hclimb => ?_⟩
    · have hfs : find_style w c2 root = ⟨.error (.runtimeError
          ("Error <response> fetching style URL " ++ w.pyprojectStyle root)), 1, 0, c2⟩ := by
        simp only [find_style, hstyle, hpre, if_true, hhttp]
      simp only [run, h1, h2, if_neg (show ¬ f ≠ f from fun hh => hh rfl), hfs]
    · have hfs : find_style w c2 root = ⟨.error (.runtimeError
          ("Style file does not exist: " ++ w.pyprojectStyle root)), 0, 0, c2⟩ := by
        simp only [find_style, hstyle, hpre, Bool.false_eq_true, if_false, if_pos hne, hex]
      simp only [run, h1, h2, if_neg (show ¬ f ≠ f from fun hh => hh rfl), hfs]
    · have hfs : find_style w c2 root = ⟨.error (.runtimeError ("Style not configured on " ++
          PYPROJECT_TOML ++ " and " ++ NITPICK_STYLE_TOML ++
          " not found in directory tree")), 0, 1, c2⟩ := by
        simp only [find_style, hstyle, hempty]
        rw [if_neg (show ¬(("" : String).startsWith "http" = true) by decide),
          if_neg (show ¬(("" : String) ≠ "") from fun hh => hh rfl), hclimb]
      simp only [run, h1, h2, if_neg (show ¬ f ≠ f from fun hh => hh rfl), hfs]

/-- C8 witness: on the empty filesystem no root marker is found, so the
run yields exactly the one NIP100 diagnostic and no fault. -/
theorem C8_resolution_failures_witness :
    run worldEmpty cache0 ["proj", "main.py"] =
      (.ok [nitpick_error 100 "No root dir found (is this a Python project?)"], cache0) :=
  (C8_resolution_failures worldEmpty cache0 ["proj", "main.py"]).1 rfl rfl

/-! ## Claim C9: the resolver's cache fast path and persistence -/

/-- C9: with a cached style path the resolver performs no network
request and no directory-tree climb and returns the cached path
(resolved against the working directory) with the cache unchanged; and
every successful non-cache resolution stores the resolved path in the
cache, relative to the working directory. -/
theorem C9_resolver_cache (w : World) (cache : Cache) (root : List String) :
    (∀ rel, cache.style = some rel →
      find_style w cache root = ⟨.ok (w.cwd ++ rel), 0, 0, cache⟩) ∧
    (cache.style = none →
      ∀ p n1 n2 c2, find_style w cache root = ⟨.ok p, n1, n2, c2⟩ →
        ∃ rel, relative_to p w.cwd = some rel ∧ c2.style = some rel) := by
  constructor
  · intro rel hc
    simp only [find_style, hc]
  · intro hc p n1 n2 c2 hfs
    simp only [find_style, hc] at hfs
    split at hfs
    · split at hfs
      · simp at hfs
      · split at hfs
        · rename_i rel hrel
          simp only [StyleOutcome.mk.injEq, Except.ok.injEq] at hfs
          obtain ⟨hp, _, _, hc2⟩ := hfs
          exact ⟨rel, hp ▸ hrel, by rw [← hc2]⟩
        · simp at hfs
    · split at hfs
      · split at hfs
        · split at hfs
          · rename_i rel hrel
            simp only [StyleOutcome.mk.injEq, Except.ok.injEq] at hfs
            obtain ⟨hp, _, _, hc2⟩ := hfs
            exact ⟨rel, hp ▸ hrel, by rw [← hc2]⟩
          · simp at hfs
        · simp at hfs
      · split at hfs
        · simp at hfs
        · split at hfs
          · rename_i rel hrel
            simp only [StyleOutcome.mk.injEq, Except.ok.injEq] at hfs
            obtain ⟨hp, _, _, hc2⟩ := hfs
            exact ⟨rel, hp ▸ hrel, by rw [← hc2]⟩
          · simp at hfs

/-- C9 witness: the fast path on a cached style, and persistence of a
successful explicit-local-path resolution into the cache. -/
theorem C9_resolver_cache_witness :
    find_style worldEmpty ⟨none, none, some ["s.toml"]⟩ ["proj"] =
      ⟨.ok ["s.toml"], 0, 0, ⟨none, none, some ["s.toml"]⟩⟩ ∧
    ∃ rel, relative_to ["sty"] worldLocalStyle.cwd = some rel ∧
      Cache.style ⟨none, none, some ["sty"]⟩ = some rel := by
  constructor
  · exact (C9_resolver_cache worldEmpty ⟨none, none, some ["s.toml"]⟩ ["proj"]).1
      ["s.toml"] rfl
  · exact (C9_resolver_cache worldLocalStyle cache0 ["proj"]).2 rfl
      ["sty"] 0 0 ⟨none, none, some ["sty"]⟩ rfl
